import Mathlib

/-!
Verification of the contact-scraper repository (src/app.py, src/process.py,
src/web.py) against its natural-language specification.

Shallow embedding conventions:
* Python strings are `List Char` (`Str`); regexes over the fixed patterns of
  the source are embedded as executable boolean matchers.  Characters are
  treated at ASCII precision (the classifying character classes used by the
  source — digits, whitespace, the fixed literal patterns — are ASCII).
* The browser-automation session (playwright) is the external collaborator the
  spec places out of scope; it is modelled as a function from a URL to either
  an error or the page data relevant to extraction (the raw regex matches found
  in the rendered HTML and the outbound link hrefs).  Claims over "every
  behaviour of the browser session" quantify over this function.
* Python `set` values are modelled as first-occurrence-deduplicated lists:
  membership is faithful, iteration order (unspecified in the source) is
  canonalised to insertion order.
* The fallible parts of the batch path return `Except`: `urlparse` raises
  `ValueError` on a netloc with an unbalanced bracket, the raise escapes
  `is_valid_url` and `get_contact_info` (the validation happens before the
  per-target `try`), and the batch loop has no per-target handler, so the
  whole run aborts with zero output rows.
-/

namespace Scrapo

abbrev Str := List Char

/-- Convert a Lean string literal to the `List Char` representation. -/
def lc (s : String) : Str := s.data

/-- Decidable equality on `Except`, for evaluating the fallible parts of the
embedding on concrete inputs. -/
instance {e a : Type} [DecidableEq e] [DecidableEq a] : DecidableEq (Except e a) := fun x y =>
  match x, y with
  | Except.error u, Except.error v =>
    if h : u = v then Decidable.isTrue (by rw [h])
    else Decidable.isFalse (fun hc => h (Except.error.inj hc))
  | Except.ok u, Except.ok v =>
    if h : u = v then Decidable.isTrue (by rw [h])
    else Decidable.isFalse (fun hc => h (Except.ok.inj hc))
  | Except.error u, Except.ok v => Decidable.isFalse (fun hc => Except.noConfusion hc)
  | Except.ok u, Except.error v => Decidable.isFalse (fun hc => Except.noConfusion hc)

/-- Python whitespace class `\s` at ASCII precision: space, tab, newline,
carriage return, vertical tab, form feed. -/
def isPyWs (c : Char) : Bool :=
  c == ' ' || c == '\t' || c == '\n' || c == '\r' || c == '\x0b' || c == '\x0c'

/-- `startsWith p l` : `l` begins with `p` (Python `str.startswith`). -/
def startsWith : Str → Str → Bool
  | [], _ => true
  | _ :: _, [] => false
  | a :: p, b :: l => a == b && startsWith p l

/-- `listContains big small` : `small` occurs contiguously in `big`
(Python `small in big` on strings). -/
def listContains : Str → Str → Bool
  | [], small => small.isEmpty
  | c :: rest, small => startsWith small (c :: rest) || listContains rest small

/-- Remove every space character (Python `str.replace(" ", "")`, used by both
`is_date` implementations; note: only `' '`, not all whitespace). -/
def stripSpaces (l : Str) : Str := l.filter (fun c => c != ' ')

/-- Character at index `i`, defaulting to a non-digit placeholder. -/
def charAt (l : Str) (i : Nat) : Char := l.getD i '*'

/-- A date separator as in the source's date regexes: `-` or `/`. -/
def isSep (c : Char) : Bool := c == '-' || c == '/'

/-- Full match of the YYYY-MM-DD shape (separator `-` or `/`,
re.fullmatch semantics). -/
def matchYMD (l : Str) : Bool :=
  l.length == 10 &&
  (charAt l 0).isDigit && (charAt l 1).isDigit && (charAt l 2).isDigit &&
  (charAt l 3).isDigit && isSep (charAt l 4) &&
  (charAt l 5).isDigit && (charAt l 6).isDigit && isSep (charAt l 7) &&
  (charAt l 8).isDigit && (charAt l 9).isDigit

/-- Full match of the YYYY-MM shape (separator `-` or `/`,
re.fullmatch semantics). -/
def matchYM (l : Str) : Bool :=
  l.length == 7 &&
  (charAt l 0).isDigit && (charAt l 1).isDigit && (charAt l 2).isDigit &&
  (charAt l 3).isDigit && isSep (charAt l 4) &&
  (charAt l 5).isDigit && (charAt l 6).isDigit

/-- Full match of `\d{4}` (re.fullmatch semantics). -/
def matchY (l : Str) : Bool :=
  l.length == 4 && l.all Char.isDigit

namespace Web

/-- `is_date` of src/web.py lines 16-22: strip spaces, then full-match one of
the three date shapes.  No length guard. -/
def is_date (string : Str) : Bool :=
  let c := stripSpaces string
  matchYMD c || matchYM c || matchY c

end Web

namespace Process

/-- `is_date` of src/process.py lines 18-26: strip spaces, reject when longer
than 10 characters, then full-match one of the three date shapes.  (The
`str(string)` conversion of the source is the identity on strings.) -/
def is_date (string : Str) : Bool :=
  let c := stripSpaces string
  if c.length > 10 then false
  else matchYMD c || matchYM c || matchY c

end Process

/-- Number of decimal digits in a string; the length of Python
`re.sub(r"\D", "", s)` (ASCII precision). -/
def digitCount (l : Str) : Nat := (l.filter Char.isDigit).length

/-- `clean_phone` of src/process.py line 28-29: keep only digit characters
(Python `filter(str.isdigit, phone)` at ASCII precision). -/
def clean_phone (phone : Str) : Str := phone.filter Char.isDigit

/-- State-machine core of `re.sub(r"\s+", " ", s)`: replace every maximal
whitespace run by a single space.  `inRun` records whether the previous
character belonged to a run already rewritten. -/
def collapseGo : Bool → Str → Str
  | _, [] => []
  | inRun, c :: r =>
    if isPyWs c then
      if inRun then collapseGo true r else ' ' :: collapseGo true r
    else c :: collapseGo false r

/-- Python `re.sub(r"\s+", " ", s)`. -/
def collapseWs (l : Str) : Str := collapseGo false l

/-- Python `str.strip()`: drop leading and trailing whitespace. -/
def pythonStrip (l : Str) : Str :=
  ((l.dropWhile isPyWs).reverse.dropWhile isPyWs).reverse

/-- The per-candidate cleaning of src/web.py line 27:
`re.sub(r"\s+", " ", phone).strip()`. -/
def cleanCandidate (p : Str) : Str := pythonStrip (collapseWs p)

/-- Full match of `^\d{4}\s*[-–]\s*\d{4}$` (src/web.py line 30; `re.match`
anchored at both ends by the explicit `^`/`$`).  The `\s*` runs are greedy and
followed by non-whitespace, so they deterministically absorb whole runs. -/
def matchRange (l : Str) : Bool :=
  (l.take 4).length == 4 && (l.take 4).all Char.isDigit &&
  (match (l.drop 4).dropWhile isPyWs with
   | [] => false
   | d :: r2 =>
     (d == '-' || d == '–') &&
     (let r3 := r2.dropWhile isPyWs
      r3.length == 4 && r3.all Char.isDigit))

/-- State machine for the prefix match `re.match(r"(\d\s+){3,}\d", s)`
(src/web.py line 32).  `k` counts completed `\d\s+` repetitions; `inWs` is
true while scanning the whitespace run that closes the current repetition.
The regex succeeds exactly when a digit is reached with at least three
repetitions completed. -/
def srGo : Bool → Nat → Str → Bool
  | _, _, [] => false
  | false, k, c :: r => if isPyWs c then srGo true k r else false
  | true, k, c :: r =>
    if isPyWs c then srGo true k r
    else if c.isDigit then
      (if k + 1 ≥ 3 then true else srGo false (k + 1) r)
    else false

/-- Prefix match of `(\d\s+){3,}\d` (the "spaced single-digit run" discard). -/
def spacedRun : Str → Bool
  | [] => false
  | c :: r => if c.isDigit then srGo false 0 r else false

/-- Loop of `filter_phones` (src/web.py lines 24-38) carrying the accumulated
set (modelled as a first-occurrence list). -/
def filterGo : List Str → List Str → List Str
  | [], acc => acc
  | p :: ps, acc =>
    let c := cleanCandidate p
    if Web.is_date c then filterGo ps acc
    else if matchRange c then filterGo ps acc
    else if spacedRun c then filterGo ps acc
    else if digitCount c < 8 then filterGo ps acc
    else if c ∈ acc then filterGo ps acc
    else filterGo ps (acc ++ [c])

/-- `filter_phones` of src/web.py lines 24-38. -/
def filter_phones (phones : List Str) : List Str := filterGo phones []

/-- Fold of a Python `set` built by repeated `add` from a list, canonalised to
keep first occurrences. -/
def dedupGo : List Str → List Str → List Str
  | [], acc => acc
  | x :: xs, acc => if x ∈ acc then dedupGo xs acc else dedupGo xs (acc ++ [x])

/-- `set(l)` as a first-occurrence-deduplicated list. -/
def dedupFirst (l : List Str) : List Str := dedupGo l []

/-- Insert into a length-descending sorted list (stable). -/
def insLen (x : Str) : List Str → List Str
  | [] => [x]
  | y :: r => if y.length ≥ x.length then y :: insLen x r else x :: y :: r

/-- `sorted(l, key=len, reverse=True)` (src/process.py line 73). -/
def sortLenDesc : List Str → List Str
  | [] => []
  | x :: r => insLen x (sortLenDesc r)

/-- The subsumption loop of src/process.py lines 72-75: keep a candidate iff
no already-kept candidate contains it as a substring. -/
def subsumeGo : List Str → List Str → List Str
  | [], acc => acc
  | x :: r, acc =>
    if acc.any (fun p => listContains p x) then subsumeGo r acc
    else subsumeGo r (acc ++ [x])

/-- The spreadsheet-batch phone pipeline of src/process.py lines 66-75 applied
to the raw phone-regex matches: set of raw matches, keep non-dates, clean to
digits, set again, sort by length descending, subsumption dedup. -/
def processPhones (phones : List Str) : List Str :=
  let cleaned :=
    dedupFirst (((dedupFirst phones).filter (fun p => !Process.is_date p)).map clean_phone)
  subsumeGo (sortLenDesc cleaned) []

/-- Characters allowed after the host part in the social patterns: the regex
class excluding whitespace, quotes and angle brackets. -/
def socialChar (c : Char) : Bool :=
  !(isPyWs c || c == '"' || c == '\'' || c == '<' || c == '>')

/-- Tail check after a social host match: at least one allowed character. -/
def afterPatOk : Str → Bool
  | [] => false
  | c :: _ => socialChar c

/-- `pattern.search(link)` for a social pattern: the literal host prefix
(e.g. `facebook.com/`) occurs somewhere, followed by at least one allowed
character. -/
def hasSocial (pat : Str) : Str → Bool
  | [] => false
  | c :: r => (startsWith pat (c :: r) && afterPatOk ((c :: r).drop pat.length)) || hasSocial pat r

/-- Host prefix of the facebook pattern. -/
def fbPat : Str := lc "facebook.com/"

/-- Host prefix of the instagram pattern. -/
def igPat : Str := lc "instagram.com/"

/-- Host prefix of the linkedin pattern. -/
def liPat : Str := lc "linkedin.com/"

/-- The three social fields of a record. -/
structure Socials where
  facebook : Str
  instagram : Str
  linkedin : Str
deriving DecidableEq

/-- Per-link step of src/process.py lines 80-83: for each platform in turn,
set the field when the pattern matches and the field is still empty. -/
def batchStep (s : Socials) (link : Str) : Socials :=
  let s1 := if hasSocial fbPat link && s.facebook.isEmpty then { s with facebook := link } else s
  let s2 := if hasSocial igPat link && s1.instagram.isEmpty then { s1 with instagram := link } else s1
  if hasSocial liPat link && s2.linkedin.isEmpty then { s2 with linkedin := link } else s2

/-- Social-link scan of the spreadsheet-batch path (src/process.py 79-83). -/
def socialsBatch (links : List Str) : Socials :=
  links.foldl batchStep ⟨[], [], []⟩

/-- Per-link step of src/web.py lines 56-60: assign the link to the first
platform (in dict order facebook, instagram, linkedin) whose pattern matches,
overwriting any earlier assignment, then `break`. -/
def singleStep (s : Socials) (link : Str) : Socials :=
  if hasSocial fbPat link then { s with facebook := link }
  else if hasSocial igPat link then { s with instagram := link }
  else if hasSocial liPat link then { s with linkedin := link }
  else s

/-- Social-link scan of the single-URL path (src/web.py 55-60). -/
def socialsSingle (links : List Str) : Socials :=
  links.foldl singleStep ⟨[], [], []⟩

/-- Scheme characters accepted by `urllib.parse`: alphanumerics and `+-.`. -/
def schemeChar (c : Char) : Bool :=
  c.isAlphanum || c == '+' || c == '-' || c == '.'

/-- Whether the scheme candidate starts with an ASCII letter. -/
def headAlpha : Str → Bool
  | [] => false
  | c :: _ => c.isAlpha

/-- Scheme split of `urllib.parse.urlparse`: if the text before the first `:`
is a nonempty run of scheme characters starting with a letter, it is the
scheme (lowercased) and the remainder follows the colon; otherwise there is
no scheme. -/
def splitScheme (u : Str) : Str × Str :=
  match u.findIdx? (fun c => c == ':') with
  | none => ([], u)
  | some i =>
    let pre := u.take i
    if (i != 0) && headAlpha pre && pre.all schemeChar then
      (pre.map Char.toLower, u.drop (i + 1))
    else ([], u)

/-- `urlparse(u).scheme`. -/
def urlScheme (u : Str) : Str := (splitScheme u).1

/-- Netloc extraction of `urllib.parse.urlsplit`: when the post-scheme text
starts with `//`, the netloc runs up to the next `/`, `?` or `#`; `urlsplit`
then raises `ValueError("Invalid IPv6 URL")` when that netloc contains an
unbalanced `[` or `]` (this check is in every CPython 3).  The raise is
modelled as `Except.error`.  CPython ≥ 3.11 additionally validates a netloc
containing both `[` and `]` as a bracketed IP literal and raises on e.g.
`a.[b]`; that extra check is not modelled, so the `ok` results are exact for
netlocs containing no bracket (every CPython 3 parses those identically). -/
def splitNetloc (rest : Str) : Except Unit Str :=
  if startsWith (lc "//") rest then
    let netloc := (rest.drop 2).takeWhile (fun c => !(c == '/' || c == '?' || c == '#'))
    if (netloc.contains '[' && !netloc.contains ']') ||
       (netloc.contains ']' && !netloc.contains '[') then Except.error ()
    else Except.ok netloc
  else Except.ok []

/-- `urlparse(u).netloc`, or the `ValueError` that `urlparse` raises. -/
def urlNetloc (u : Str) : Except Unit Str := splitNetloc (splitScheme u).2

/-- `is_valid_url` of src/process.py lines 31-33:
`bool(parsed.scheme and parsed.netloc)`.  The function does not catch the
`ValueError` that `urlparse` may raise, so the error propagates out. -/
def is_valid_url (u : Str) : Except Unit Bool :=
  match urlNetloc u with
  | Except.error e => Except.error e
  | Except.ok netloc => Except.ok (!(urlScheme u).isEmpty && !netloc.isEmpty)

/-- The data the browser layer hands to extraction for one page: the raw
email-regex matches, the raw phone-regex matches found in the rendered
content, and the outbound link hrefs.  (The regex scan over the rendered HTML
happens at the browser boundary of the embedding; the claims quantify over
arbitrary match lists, which subsumes every concrete page.) -/
structure PageData where
  rawEmails : List Str
  rawPhones : List Str
  links : List Str

/-- A behaviour of the browser-automation session: for a URL, either a
navigation/extraction error that the per-target `except` handler catches and
completes on (debug capture and page close succeeding), or the page data.
Errors carry no information (`Unit`), matching the catch-all `except` of the
source.  An exception escaping the handler (e.g. `page.close()` itself
raising in the `finally`) is outside this behaviour space; like a validation
error it would abort the run, which the record-level `Except` expresses. -/
abbrev Browser := Str → Except Unit PageData

/-- Output record of the spreadsheet-batch path (one CSV row). -/
structure ContactRecord where
  url : Str
  emails : List Str
  phones : List Str
  facebook : Str
  instagram : Str
  linkedin : Str
deriving DecidableEq

/-- The normalization of src/process.py lines 36-37: prefix `https://` when
the target does not start with `http`. -/
def normalizeUrl (t : Str) : Str :=
  if startsWith (lc "http") t then t else lc "https://" ++ t

/-- The all-empty record emitted for invalid URLs and failed targets
(src/process.py lines 41 and 101). -/
def emptyRecord (u : Str) : ContactRecord := ⟨u, [], [], [], [], []⟩

/-- `get_contact_info` of src/process.py lines 35-104: normalize, validate,
navigate (through the browser behaviour), extract.  The `is_valid_url` call
at line 39 sits OUTSIDE the per-target `try` of lines 43-104, so a
`ValueError` raised there escapes `get_contact_info` (`Except.error`); a
navigation/extraction error inside the `try` is caught by the handler and
degrades to the all-empty record.  The secondary contact-page hop and the
debug-artifact capture are internal to the browser behaviour / error branch
and do not change the returned record shape. -/
def get_contact_info (bro : Browser) (target : Str) : Except Unit ContactRecord :=
  let url := normalizeUrl target
  match is_valid_url url with
  | Except.error e => Except.error e
  | Except.ok valid =>
    if !valid then Except.ok (emptyRecord url)
    else
      match bro url with
      | Except.error _ => Except.ok (emptyRecord url)
      | Except.ok pd =>
        let s := socialsBatch pd.links
        Except.ok
          { url := url
            emails := dedupFirst pd.rawEmails
            phones := processPhones pd.rawPhones
            facebook := s.facebook
            instagram := s.instagram
            linkedin := s.linkedin }

/-- The sequential batch loop of src/process.py lines 182-186 followed by the
in-order row emission of lines 189-193.  The loop has no per-target handler,
so an exception escaping `get_contact_info` aborts the whole run; the output
file is only written after the loop, so an aborted run emits zero rows
(`Except.error`). -/
def runBatch (bro : Browser) : List Str → Except Unit (List ContactRecord)
  | [] => Except.ok []
  | t :: ts =>
    match get_contact_info bro t with
    | Except.error e => Except.error e
    | Except.ok r =>
      match runBatch bro ts with
      | Except.error e => Except.error e
      | Except.ok rs => Except.ok (r :: rs)

/-- Output record of the single-URL path (src/web.py). -/
structure WebRecord where
  email : List Str
  phone : List Str
  facebook : Str
  instagram : Str
  linkedin : Str
deriving DecidableEq

/-- `extract_contact_info` of src/web.py lines 40-79: navigate, extract
emails/phones/socials; any error degrades to the all-empty record. -/
def extract_contact_info (bro : Browser) (url : Str) : WebRecord :=
  match bro url with
  | Except.error _ => ⟨[], [], [], [], []⟩
  | Except.ok pd =>
    let s := socialsSingle pd.links
    ⟨dedupFirst pd.rawEmails, filter_phones pd.rawPhones, s.facebook, s.instagram, s.linkedin⟩

/-- A spreadsheet column: cells are either missing (pandas NaN, dropped by
`dropna`) or a string value. -/
abbrev Column := List (Option Str)

/-- The column's sampled values: up to 20 present cells
(`df[col].dropna().head(20)`, src/process.py line 122). -/
def colSamples (col : Column) : List Str := (col.filterMap id).take 20

/-- The URL/email-likeness test of src/process.py lines 127-129 on a lowered
sample: contains `@`, `.com`, `.net`, `.org`, `.io` or `.co`. -/
def colLike (s : Str) : Bool :=
  let t := s.map Char.toLower
  t.contains '@' || listContains t (lc ".com") || listContains t (lc ".net") ||
  listContains t (lc ".org") || listContains t (lc ".io") || listContains t (lc ".co")

/-- The column score: how many sampled values are URL/email-like
(src/process.py lines 120-130). -/
def colScore (col : Column) : Nat := (colSamples col).countP colLike

/-- The column-selection loop of src/process.py lines 115-134: skip columns
with no present cells, otherwise keep the first column whose score strictly
exceeds the running maximum (initially -1). -/
def selGo : Nat → Option Nat → Int → List Column → Option Nat × Int
  | _, best, ms, [] => (best, ms)
  | i, best, ms, col :: rest =>
    if (colSamples col).isEmpty then selGo (i + 1) best ms rest
    else if ms < (colScore col : Int) then selGo (i + 1) (some i) (colScore col) rest
    else selGo (i + 1) best ms rest

/-- Column selection (src/process.py lines 115-138): the chosen column index,
or `none` for the abort of line 136-138 (`url_column is None or
max_score == 0`). -/
def select_target_column (t : List Column) : Option Nat :=
  match selGo 0 none (-1) t with
  | (none, _) => none
  | (some i, ms) => if ms = 0 then none else some i

/-- Python `v.split('@')[-1]`: the substring after the last `@`. -/
def afterLastAt (v : Str) : Str :=
  (v.reverse.takeWhile (fun c => !(c == '@'))).reverse

/-- Python `v.split('.')`. -/
def splitOnDot : Str → List Str
  | [] => [[]]
  | c :: r =>
    let rest := splitOnDot r
    if c == '.' then [] :: rest
    else
      match rest with
      | [] => [[c]]
      | h :: t => (c :: h) :: t

/-- The target-extraction loop of src/process.py lines 146-166, carrying the
accumulated output list (whose element set equals the `seen` set of the
source). -/
def extractLoop : List Str → List Str → List Str
  | [], acc => acc
  | v :: vs, acc =>
    if v.isEmpty then extractLoop vs acc
    else if v.contains '@' then
      let d := afterLastAt v
      if !d.isEmpty && !(decide (d ∈ acc)) then extractLoop vs (acc ++ [d])
      else extractLoop vs acc
    else if v.contains '.' && !((pythonStrip v).contains ' ') then
      let parts := splitOnDot v
      if (decide (2 ≤ parts.length)) && !(parts.headD []).isEmpty then
        if !(decide (v ∈ acc)) then extractLoop vs (acc ++ [v]) else extractLoop vs acc
      else extractLoop vs acc
    else extractLoop vs acc

/-- Target extraction from the selected column's stripped values
(src/process.py lines 146-166). -/
def extract_targets (values : List Str) : List Str := extractLoop values []

/-- Per-value acceptance rule implemented by the source, written as a
classifier: email values map to the domain after the last `@`; dotted values
with no space character in their stripped form, at least two dot-separated
parts and a nonempty first part are accepted as-is; everything else is
skipped.  `extract_targets` is proved equal to first-occurrence dedup over
this classifier. -/
def acceptValue (v : Str) : Option Str :=
  if v.contains '@' then
    (let d := afterLastAt v; if d.isEmpty then none else some d)
  else if (v.contains '.' && !((pythonStrip v).contains ' ')) &&
          ((decide (2 ≤ (splitOnDot v).length)) && !((splitOnDot v).headD []).isEmpty) then
    some v
  else none

/-- Modelled from the spec (claim C8's words, for comparison with the code):
the same extraction but skipping every dotted value containing any internal
whitespace character, not merely a space. -/
def extract_targets_spec (values : List Str) : List Str :=
  dedupFirst (values.filterMap (fun v =>
    if v.contains '@' then
      (let d := afterLastAt v; if d.isEmpty then none else some d)
    else if v.contains '.' && !(v.any isPyWs) &&
            (decide (2 ≤ (splitOnDot v).length)) && !((splitOnDot v).headD []).isEmpty then
      some v
    else none))

/-! ## Helper lemmas -/

theorem matchYMD_len {l : Str} (h : matchYMD l = true) : l.length = 10 := by
  by_contra hn
  have hb : (l.length == 10) = false := by simpa using hn
  simp [matchYMD, hb] at h

theorem matchYM_len {l : Str} (h : matchYM l = true) : l.length = 7 := by
  by_contra hn
  have hb : (l.length == 7) = false := by simpa using hn
  simp [matchYM, hb] at h

theorem matchY_len {l : Str} (h : matchY l = true) : l.length = 4 := by
  by_contra hn
  have hb : (l.length == 4) = false := by simpa using hn
  simp [matchY, hb] at h

theorem startsWith_length : ∀ {p l : Str}, startsWith p l = true → p.length ≤ l.length := by
  intro p
  induction p with
  | nil => intro l _; simp
  | cons a p ih =>
    intro l h
    cases l with
    | nil => simp [startsWith] at h
    | cons b l =>
      simp only [startsWith, Bool.and_eq_true] at h
      simpa using Nat.succ_le_succ (ih h.2)

theorem startsWith_eq_of_length : ∀ {p l : Str}, startsWith p l = true →
    p.length = l.length → p = l := by
  intro p
  induction p with
  | nil =>
    intro l _ hl
    cases l with
    | nil => rfl
    | cons b l => simp at hl
  | cons a p ih =>
    intro l h hl
    cases l with
    | nil => simp [startsWith] at h
    | cons b l =>
      simp only [startsWith, Bool.and_eq_true, beq_iff_eq] at h
      simp only [List.length_cons, Nat.succ.injEq] at hl
      rw [h.1, ih h.2 hl]

theorem listContains_length : ∀ {big small : Str},
    listContains big small = true → small.length ≤ big.length := by
  intro big
  induction big with
  | nil =>
    intro small h
    simp only [listContains, List.isEmpty_iff] at h
    simp [h]
  | cons c rest ih =>
    intro small h
    simp only [listContains, Bool.or_eq_true] at h
    rcases h with h | h
    · exact startsWith_length h
    · exact (ih h).trans (by simp)

theorem listContains_eq_of_length : ∀ {big small : Str},
    listContains big small = true → small.length = big.length → small = big := by
  intro big
  induction big with
  | nil =>
    intro small h _
    simp only [listContains, List.isEmpty_iff] at h
    exact h
  | cons c rest ih =>
    intro small h hl
    simp only [listContains, Bool.or_eq_true] at h
    rcases h with h | h
    · exact startsWith_eq_of_length h hl
    · have := listContains_length h
      simp only [List.length_cons] at hl
      omega

theorem listContains_length_lt {big small : Str}
    (h : listContains big small = true) (hne : small ≠ big) :
    small.length < big.length := by
  rcases Nat.lt_or_ge small.length big.length with hlt | hge
  · exact hlt
  · exact absurd (listContains_eq_of_length h (Nat.le_antisymm (listContains_length h) hge)) hne

/-! ## C10 : the date-like classifier -/

/-- C10: the date-like classifier returns true iff the space-stripped string
fully matches one of the three date shapes; it is false for every string
longer than 10 characters after space-stripping; and the spreadsheet-batch
implementation (`Process.is_date`, with an explicit length guard) and the
single-URL implementation (`Web.is_date`, without one) agree on every
string — the guard is redundant because every shape forces length at
most 10. -/
theorem is_date_classifier_agrees (s : Str) :
    Process.is_date s = Web.is_date s ∧
    (Web.is_date s = true ↔
      (matchYMD (stripSpaces s) = true ∨ matchYM (stripSpaces s) = true ∨
       matchY (stripSpaces s) = true)) ∧
    (10 < (stripSpaces s).length → Web.is_date s = false) := by
  have h3 : 10 < (stripSpaces s).length → Web.is_date s = false := by
    intro hl
    have e1 : matchYMD (stripSpaces s) = false := by
      cases h : matchYMD (stripSpaces s)
      · rfl
      · exact absurd (matchYMD_len h) (by omega)
    have e2 : matchYM (stripSpaces s) = false := by
      cases h : matchYM (stripSpaces s)
      · rfl
      · exact absurd (matchYM_len h) (by omega)
    have e3 : matchY (stripSpaces s) = false := by
      cases h : matchY (stripSpaces s)
      · rfl
      · exact absurd (matchY_len h) (by omega)
    simp [Web.is_date, e1, e2, e3]
  refine ⟨?_, by simp [Web.is_date, Bool.or_eq_true, or_assoc], h3⟩
  by_cases hl : 10 < (stripSpaces s).length
  · have : Process.is_date s = false := by simp [Process.is_date, hl]
    rw [this, h3 hl]
  · simp only [Process.is_date, Web.is_date]
    rw [if_neg (by omega)]

/-- Witness for C10's conditional part at a concrete over-long input. -/
theorem is_date_classifier_agrees_witness :
    Process.is_date (lc "20230501123456") = Web.is_date (lc "20230501123456") ∧
    Web.is_date (lc "20230501123456") = false :=
  ⟨(is_date_classifier_agrees (lc "20230501123456")).1,
   (is_date_classifier_agrees (lc "20230501123456")).2.2 (by decide)⟩

/-! ## C4 : filter_phones discards -/

theorem filterGo_all_discarded :
    ∀ (l : List Str) (acc : List Str),
      (∀ p ∈ l, Web.is_date (cleanCandidate p) = true ∨
        matchRange (cleanCandidate p) = true ∨ digitCount (cleanCandidate p) < 8) →
      filterGo l acc = acc := by
  intro l
  induction l with
  | nil => intro acc _; rfl
  | cons p ps ih =>
    intro acc h
    have hp := h p (by simp)
    have ht : ∀ q ∈ ps, Web.is_date (cleanCandidate q) = true ∨
        matchRange (cleanCandidate q) = true ∨ digitCount (cleanCandidate q) < 8 :=
      fun q hq => h q (by simp [hq])
    simp only [filterGo]
    split_ifs with h1 h2 h3 h4 h5
    · exact ih _ ht
    · exact ih _ ht
    · exact ih _ ht
    · exact ih _ ht
    · exact ih _ ht
    · exfalso
      rcases hp with hd | hr | hc
      · exact h1 hd
      · exact h2 hr
      · exact h4 hc

/-- C4: `filter_phones` on the empty sequence returns the empty result, and on
any sequence whose candidates (in cleaned form) are all date-like, 4-digit
ranges, or have fewer than 8 digits, it returns the empty result.  (The
embedded function is total, so it never raises.) -/
theorem filter_phones_all_discarded (l : List Str)
    (h : ∀ p ∈ l, Web.is_date (cleanCandidate p) = true ∨
      matchRange (cleanCandidate p) = true ∨ digitCount (cleanCandidate p) < 8) :
    filter_phones ([] : List Str) = [] ∧ filter_phones l = [] :=
  ⟨rfl, filterGo_all_discarded l [] h⟩

/-- Witness for C4 at the claim's own example inputs. -/
theorem filter_phones_all_discarded_witness :
    filter_phones ([] : List Str) = [] ∧
    filter_phones [lc "2023-05-01", lc "1990-1999", lc "123 456"] = [] :=
  filter_phones_all_discarded [lc "2023-05-01", lc "1990-1999", lc "123 456"] (by decide)

/-! ## C1 / C2 : batch records and error propagation -/

theorem get_contact_info_url {bro : Browser} {t : Str} {r : ContactRecord}
    (h : get_contact_info bro t = Except.ok r) : r.url = normalizeUrl t := by
  rcases hv : is_valid_url (normalizeUrl t) with e | b
  · simp [get_contact_info, hv] at h
  · cases b
    · simp [get_contact_info, hv] at h
      rw [← h]
      rfl
    · rcases hb : bro (normalizeUrl t) with e2 | pd
      · simp [get_contact_info, hv, hb] at h
        rw [← h]
        rfl
      · simp [get_contact_info, hv, hb] at h
        rw [← h]

theorem runBatch_abort (bro : Browser) (t : Str)
    (h : get_contact_info bro t = Except.error ()) :
    ∀ pre post, runBatch bro (pre ++ t :: post) = Except.error () := by
  intro pre
  induction pre with
  | nil =>
    intro post
    simp [runBatch, h]
  | cons p pre ih =>
    intro post
    rw [List.cons_append]
    simp only [runBatch]
    rw [ih post]
    cases hg : get_contact_info bro p with
    | error e => cases e; rfl
    | ok r => rfl

theorem runBatch_insert_ok (bro : Browser) (t : Str) (r : ContactRecord)
    (h : get_contact_info bro t = Except.ok r) :
    ∀ (pre : List Str) (rs1 : List ContactRecord) (post : List Str) (rs2 : List ContactRecord),
      runBatch bro pre = Except.ok rs1 → runBatch bro post = Except.ok rs2 →
      runBatch bro (pre ++ t :: post) = Except.ok (rs1 ++ r :: rs2) := by
  intro pre
  induction pre with
  | nil =>
    intro rs1 post rs2 h1 h2
    have he : rs1 = [] := by
      simpa [runBatch] using h1.symm
    subst he
    simp [runBatch, h, h2]
  | cons p pre ih =>
    intro rs1 post rs2 h1 h2
    simp only [runBatch] at h1
    cases hg : get_contact_info bro p with
    | error e =>
      rw [hg] at h1
      simp at h1
    | ok rp =>
      rw [hg] at h1
      cases hr : runBatch bro pre with
      | error e =>
        rw [hr] at h1
        simp at h1
      | ok rs1b =>
        rw [hr] at h1
        have he : rs1 = rp :: rs1b := by simpa using h1.symm
        subst he
        rw [List.cons_append]
        simp only [runBatch]
        rw [hg, ih rs1b post rs2 hr h2]
        rfl

theorem runBatch_ok_correspondence (bro : Browser) :
    ∀ (targets : List Str) (rs : List ContactRecord),
      runBatch bro targets = Except.ok rs →
      rs.length = targets.length ∧
      (∀ i : Nat, (targets[i]?).map (get_contact_info bro) = (rs[i]?).map Except.ok) ∧
      (∀ i : Nat, (rs[i]?).map ContactRecord.url = (targets[i]?).map normalizeUrl) := by
  intro targets
  induction targets with
  | nil =>
    intro rs h
    have he : rs = [] := by simpa [runBatch] using h.symm
    subst he
    refine ⟨rfl, ?_, ?_⟩ <;> intro i <;> simp
  | cons t ts ih =>
    intro rs h
    simp only [runBatch] at h
    cases hg : get_contact_info bro t with
    | error e =>
      rw [hg] at h
      simp at h
    | ok r =>
      rw [hg] at h
      cases hr : runBatch bro ts with
      | error e =>
        rw [hr] at h
        simp at h
      | ok rs2 =>
        rw [hr] at h
        have he : rs = r :: rs2 := by simpa using h.symm
        subst he
        obtain ⟨hl, hcorr, hurl⟩ := ih rs2 hr
        refine ⟨by simp [hl], ?_, ?_⟩
        · intro i
          cases i with
          | zero => simp [hg]
          | succ n => simpa using hcorr n
        · intro i
          cases i with
          | zero => simp [get_contact_info_url hg]
          | succ n => simpa using hurl n

/-- Counterexample to C1: `a.[` is a resolvable target (the extraction loop
accepts it), but its normalized URL `https://a.[` makes `urlparse` raise
`ValueError("Invalid IPv6 URL")` outside the per-target `try`, so the batch
run aborts with zero output rows instead of emitting one record per target —
even under a browser behaviour that succeeds on every URL. -/
theorem batch_abort_counterexample :
    extract_targets [lc "a.["] = [lc "a.["] ∧
    runBatch (fun _ => Except.ok (PageData.mk [] [] [])) [lc "a.["] = Except.error () := by
  decide

/-- C1 (amended): for every resolved target list and browser behaviour, when
the batch run completes (no target's URL validation raises), it emits exactly
one record per target, the i-th output row being the record of the i-th
target; a target on which URL validation raises aborts the whole run with no
output rows. -/
theorem batch_run_records_amended (bro : Browser) (targets : List Str) :
    (∀ rs, runBatch bro targets = Except.ok rs →
      rs.length = targets.length ∧
      (∀ i : Nat, (targets[i]?).map (get_contact_info bro) = (rs[i]?).map Except.ok) ∧
      (∀ i : Nat, (rs[i]?).map ContactRecord.url = (targets[i]?).map normalizeUrl)) ∧
    (∀ pre t post, get_contact_info bro t = Except.error () →
      runBatch bro (pre ++ t :: post) = Except.error ()) := by
  constructor
  · intro rs h
    exact runBatch_ok_correspondence bro targets rs h
  · intro pre t post h
    exact runBatch_abort bro t h pre post

/-- Witness for C1 (amended): a completing one-target run, and the abort on
the raising target `a.[`. -/
theorem batch_run_records_amended_witness :
    [ContactRecord.mk (lc "https://x.com") [] [] [] [] []].length = [lc "x.com"].length ∧
    runBatch (fun _ => Except.ok (PageData.mk [] [] [])) ([] ++ lc "a.[" :: []) =
      Except.error () :=
  ⟨((batch_run_records_amended (fun _ => Except.ok (PageData.mk [] [] [])) [lc "x.com"]).1
      [ContactRecord.mk (lc "https://x.com") [] [] [] [] []] (by decide)).1,
   (batch_run_records_amended (fun _ => Except.ok (PageData.mk [] [] [])) []).2
      [] (lc "a.[") [] (by decide)⟩

/-- Counterexample to C2: the target `a.[` raises during its own processing
(URL validation, step 1 of the Page Navigator protocol, sits before the
per-target `try`), and the error propagates past the target: the whole
two-target batch aborts instead of continuing to `x.com`. -/
theorem per_target_error_propagates_counterexample :
    extract_targets [lc "a.["] = [lc "a.["] ∧
    is_valid_url (normalizeUrl (lc "a.[")) = Except.error () ∧
    get_contact_info (fun _ => Except.ok (PageData.mk [] [] [])) (lc "a.[") =
      Except.error () ∧
    runBatch (fun _ => Except.ok (PageData.mk [] [] [])) [lc "a.[", lc "x.com"] =
      Except.error () := by
  decide

/-- C2 (amended): for every target whose URL validates and whose
navigation/extraction raises an error that the per-target handler catches
(e.g. an unreachable host), the runner produces a well-formed record with all
contact fields empty and the batch continues around it; the single-URL path
likewise degrades to an all-empty record; but an error raised during URL
validation (before the per-target `try`) propagates and aborts the entire
run. -/
theorem handled_error_degrades_amended (bro : Browser) (target : Str) (e : Unit)
    (hv : is_valid_url (normalizeUrl target) = Except.ok true)
    (he : bro (normalizeUrl target) = Except.error e) :
    get_contact_info bro target = Except.ok (emptyRecord (normalizeUrl target)) ∧
    (∀ pre rs1 post rs2, runBatch bro pre = Except.ok rs1 →
      runBatch bro post = Except.ok rs2 →
      runBatch bro (pre ++ target :: post) =
        Except.ok (rs1 ++ emptyRecord (normalizeUrl target) :: rs2)) ∧
    (∀ t2 pre post, is_valid_url (normalizeUrl t2) = Except.error () →
      runBatch bro (pre ++ t2 :: post) = Except.error ()) ∧
    (∀ u e2, bro u = Except.error e2 → extract_contact_info bro u = ⟨[], [], [], [], []⟩) := by
  have h1 : get_contact_info bro target = Except.ok (emptyRecord (normalizeUrl target)) := by
    simp [get_contact_info, hv, he]
  refine ⟨h1, ?_, ?_, ?_⟩
  · intro pre rs1 post rs2 hp hq
    exact runBatch_insert_ok bro target _ h1 pre rs1 post rs2 hp hq
  · intro t2 pre post hve
    have hg : get_contact_info bro t2 = Except.error () := by
      simp [get_contact_info, hve]
    exact runBatch_abort bro t2 hg pre post
  · intro u e2 h
    simp [extract_contact_info, h]

/-- Witness for C2 (amended): a browser failing on every URL, the target
`x.com`, neighbours processed successfully, and the raising target `a.[`. -/
theorem handled_error_degrades_amended_witness :
    get_contact_info (fun _ => Except.error ()) (lc "x.com") =
      Except.ok (emptyRecord (normalizeUrl (lc "x.com"))) ∧
    runBatch (fun _ => Except.error ()) ([] ++ lc "x.com" :: []) =
      Except.ok ([] ++ emptyRecord (normalizeUrl (lc "x.com")) :: []) ∧
    runBatch (fun _ => Except.error ()) ([] ++ lc "a.[" :: []) = Except.error () ∧
    extract_contact_info (fun _ => Except.error ()) (lc "https://x.com") =
      ⟨[], [], [], [], []⟩ := by
  have h := handled_error_degrades_amended (fun _ => Except.error ()) (lc "x.com") ()
    (by decide) rfl
  exact ⟨h.1, h.2.1 [] [] [] [] (by decide) (by decide),
    h.2.2.1 (lc "a.[") [] [] (by decide), h.2.2.2 (lc "https://x.com") () rfl⟩

/-! ## C3 : what each path's emitted phones actually passed -/

theorem mem_filterGo :
    ∀ (l acc : List Str),
      (∀ y ∈ acc, Web.is_date y = false ∧ matchRange y = false ∧
        spacedRun y = false ∧ 8 ≤ digitCount y) →
      ∀ x ∈ filterGo l acc, Web.is_date x = false ∧ matchRange x = false ∧
        spacedRun x = false ∧ 8 ≤ digitCount x := by
  intro l
  induction l with
  | nil => intro acc hacc x hx; exact hacc x hx
  | cons p ps ih =>
    intro acc hacc x hx
    simp only [filterGo] at hx
    split_ifs at hx with h1 h2 h3 h4 h5
    · exact ih acc hacc x hx
    · exact ih acc hacc x hx
    · exact ih acc hacc x hx
    · exact ih acc hacc x hx
    · exact ih acc hacc x hx
    · refine ih _ ?_ x hx
      intro y hy
      rcases List.mem_append.1 hy with hy | hy
      · exact hacc y hy
      · have hey : y = cleanCandidate p := by simpa using hy
        subst hey
        exact ⟨Bool.eq_false_iff.mpr h1, Bool.eq_false_iff.mpr h2,
          Bool.eq_false_iff.mpr h3, by omega⟩

theorem mem_dedupGo : ∀ (l acc : List Str) (x : Str), x ∈ dedupGo l acc → x ∈ acc ∨ x ∈ l := by
  intro l
  induction l with
  | nil => intro acc x hx; exact Or.inl hx
  | cons y ys ih =>
    intro acc x hx
    simp only [dedupGo] at hx
    split_ifs at hx with h
    · rcases ih acc x hx with h2 | h2
      · exact Or.inl h2
      · exact Or.inr (by simp [h2])
    · rcases ih _ x hx with h2 | h2
      · rcases List.mem_append.1 h2 with h3 | h3
        · exact Or.inl h3
        · exact Or.inr (by simpa using Or.inl (by simpa using h3))
      · exact Or.inr (by simp [h2])

theorem mem_insLen (x y : Str) : ∀ (l : List Str), x ∈ insLen y l → x = y ∨ x ∈ l := by
  intro l
  induction l with
  | nil => intro hx; simp only [insLen] at hx; exact Or.inl (by simpa using hx)
  | cons z zs ih =>
    intro hx
    simp only [insLen] at hx
    split_ifs at hx with h
    · rcases List.mem_cons.1 hx with h2 | h2
      · exact Or.inr (by simp [h2])
      · rcases ih h2 with h3 | h3
        · exact Or.inl h3
        · exact Or.inr (by simp [h3])
    · rcases List.mem_cons.1 hx with h2 | h2
      · exact Or.inl h2
      · exact Or.inr h2

theorem mem_sortLenDesc (x : Str) : ∀ (l : List Str), x ∈ sortLenDesc l → x ∈ l := by
  intro l
  induction l with
  | nil => intro hx; simp [sortLenDesc] at hx
  | cons y ys ih =>
    intro hx
    simp only [sortLenDesc] at hx
    rcases mem_insLen x y _ hx with h | h
    · simp [h]
    · simp [ih h]

theorem mem_subsumeGo : ∀ (l acc : List Str) (x : Str), x ∈ subsumeGo l acc → x ∈ acc ∨ x ∈ l := by
  intro l
  induction l with
  | nil => intro acc x hx; exact Or.inl hx
  | cons y ys ih =>
    intro acc x hx
    simp only [subsumeGo] at hx
    split_ifs at hx with h
    · rcases ih acc x hx with h2 | h2
      · exact Or.inl h2
      · exact Or.inr (by simp [h2])
    · rcases ih _ x hx with h2 | h2
      · rcases List.mem_append.1 h2 with h3 | h3
        · exact Or.inl h3
        · exact Or.inr (by simpa using Or.inl (by simpa using h3))
      · exact Or.inr (by simp [h2])

/-- Counterexample to C3: the spreadsheet-batch path emits a phone with only
7 digits in cleaned form (`555.12.34` is a genuine match of the phone regex),
so its values have not passed the 8-digit (nor range, nor spaced-run) discard
rules; and the single-URL path keeps both of two candidates whose cleaned
digit forms are in a substring relation, so it applies no subsumption dedup
pass. -/
theorem phone_rules_counterexample :
    get_contact_info (fun _ => Except.ok (PageData.mk [] [lc "555.12.34"] []))
        (lc "x.com") =
      Except.ok (ContactRecord.mk (lc "https://x.com") [] [lc "5551234"] [] [] []) ∧
    digitCount (lc "5551234") < 8 ∧
    filter_phones [lc "12345678", lc "1234567890"] = [lc "12345678", lc "1234567890"] ∧
    listContains (clean_phone (lc "1234567890")) (clean_phone (lc "12345678")) = true := by
  decide

/-- C3 (amended): in the single-URL path every emitted phone has passed all
four per-candidate discard rules (not date-like, not a 4-digit range, not a
spaced single-digit run, at least 8 digits once cleaned) with exact-duplicate
dedup but no subsumption pass; in the spreadsheet-batch path every emitted
phone is the digit-cleaned form of a non-date-like raw match passed through
the subsumption dedup pass, with no 8-digit / range / spaced-run rule. -/
theorem phone_paths_filtering_amended :
    (∀ (l : List Str) (x : Str), x ∈ filter_phones l →
      Web.is_date x = false ∧ matchRange x = false ∧ spacedRun x = false ∧
      8 ≤ digitCount x) ∧
    (∀ (l : List Str) (x : Str), x ∈ processPhones l →
      ∃ p, p ∈ l ∧ Process.is_date p = false ∧ x = clean_phone p) := by
  constructor
  · intro l x hx
    exact mem_filterGo l [] (by simp) x hx
  · intro l x hx
    unfold processPhones at hx
    rcases mem_subsumeGo _ [] x hx with h | h
    · simp at h
    · have h2 := mem_sortLenDesc x _ h
      rcases mem_dedupGo _ [] x h2 with h3 | h3
      · simp at h3
      · rcases List.mem_map.1 h3 with ⟨p, hp, hxp⟩
        have hp2 := List.mem_filter.1 hp
        rcases mem_dedupGo _ [] p hp2.1 with h4 | h4
        · simp at h4
        · exact ⟨p, h4, by simpa using hp2.2, hxp.symm⟩

/-- Witness for C3 (amended) at a concrete candidate accepted by both paths. -/
theorem phone_paths_filtering_amended_witness :
    (Web.is_date (lc "12345678") = false ∧ matchRange (lc "12345678") = false ∧
      spacedRun (lc "12345678") = false ∧ 8 ≤ digitCount (lc "12345678")) ∧
    (∃ p, p ∈ [lc "12345678"] ∧ Process.is_date p = false ∧ lc "12345678" = clean_phone p) :=
  ⟨phone_paths_filtering_amended.1 [lc "12345678"] (lc "12345678") (by decide),
   phone_paths_filtering_amended.2 [lc "12345678"] (lc "12345678") (by decide)⟩

/-! ## C5 : subsumption dedup -/

/-- C5: on the spreadsheet-batch pipeline, given two retained (non-date)
candidates whose cleaned digit forms stand in a proper substring relation,
only the one with the longer digit form is retained, in either input order:
the pass sorts by cleaned-digit length descending and keeps a candidate iff
no already-kept candidate contains it as a substring. -/
theorem subsumption_retains_longer (a b : Str)
    (hda : Process.is_date a = false) (hdb : Process.is_date b = false)
    (hne : clean_phone a ≠ clean_phone b)
    (hinf : listContains (clean_phone b) (clean_phone a) = true) :
    processPhones [a, b] = [clean_phone b] ∧ processPhones [b, a] = [clean_phone b] := by
  have hab : a ≠ b := fun h => hne (by rw [h])
  have hlt : (clean_phone a).length < (clean_phone b).length :=
    listContains_length_lt hinf hne
  have e2 : dedupFirst [clean_phone a, clean_phone b] = [clean_phone a, clean_phone b] := by
    simp [dedupFirst, dedupGo, hne.symm]
  have e2r : dedupFirst [clean_phone b, clean_phone a] = [clean_phone b, clean_phone a] := by
    simp [dedupFirst, dedupGo, hne]
  have e3 : sortLenDesc [clean_phone a, clean_phone b] = [clean_phone b, clean_phone a] := by
    simp [sortLenDesc, insLen, Nat.le_of_lt hlt]
  have e3r : sortLenDesc [clean_phone b, clean_phone a] = [clean_phone b, clean_phone a] := by
    simp [sortLenDesc, insLen, Nat.not_le.mpr hlt]
  have e4 : subsumeGo [clean_phone b, clean_phone a] [] = [clean_phone b] := by
    simp [subsumeGo, hinf]
  constructor
  · have d1 : dedupFirst [a, b] = [a, b] := by
      simp [dedupFirst, dedupGo, hab.symm]
    have e1 : ((dedupFirst [a, b]).filter (fun p => !Process.is_date p)).map clean_phone
        = [clean_phone a, clean_phone b] := by
      rw [d1]; simp [List.filter, hda, hdb]
    simp only [processPhones]
    rw [e1, e2, e3, e4]
  · have d1 : dedupFirst [b, a] = [b, a] := by
      simp [dedupFirst, dedupGo, hab]
    have e1 : ((dedupFirst [b, a]).filter (fun p => !Process.is_date p)).map clean_phone
        = [clean_phone b, clean_phone a] := by
      rw [d1]; simp [List.filter, hda, hdb]
    simp only [processPhones]
    rw [e1, e2r, e3r, e4]

/-- Witness for C5 at the spec's own example pair. -/
theorem subsumption_retains_longer_witness :
    processPhones [lc "555-1234", lc "+1 555-1234"] = [clean_phone (lc "+1 555-1234")] ∧
    processPhones [lc "+1 555-1234", lc "555-1234"] = [clean_phone (lc "+1 555-1234")] :=
  subsumption_retains_longer (lc "555-1234") (lc "+1 555-1234")
    (by decide) (by decide) (by decide) (by decide)

/-! ## C6 : social-link selection -/

theorem hasSocial_ne_nil {pat l : Str} (h : hasSocial pat l = true) : l.isEmpty = false := by
  cases l with
  | nil => simp [hasSocial] at h
  | cons c r => rfl

/-- Guarded per-link update of one social field in the batch path. -/
def guardStep (m : Str → Bool) (f link : Str) : Str :=
  if m link && f.isEmpty then link else f

/-- Overwriting per-link update of one social field in the single-URL path. -/
def lastStep (m : Str → Bool) (f link : Str) : Str :=
  if m link then link else f

theorem guardFold (m : Str → Bool) (hm : ∀ x, m x = true → x.isEmpty = false) :
    ∀ (links : List Str) (f : Str),
      links.foldl (guardStep m) f = if f.isEmpty then ((links.find? m).getD []) else f := by
  intro links
  induction links with
  | nil =>
    intro f
    cases hf : f.isEmpty
    · simp [hf]
    · simp [hf, List.isEmpty_iff.1 hf]
  | cons l ls ih =>
    intro f
    simp only [List.foldl_cons]
    cases hf : f.isEmpty
    · have : guardStep m f l = f := by simp [guardStep, hf]
      rw [this, ih f, hf]
      simp
    · have hfe : f = [] := List.isEmpty_iff.1 hf
      cases hml : m l
      · have : guardStep m f l = f := by simp [guardStep, hml]
        rw [this, ih f, hf]
        simp [List.find?, hml]
      · have : guardStep m f l = l := by simp [guardStep, hml, hf]
        rw [this, ih l, hm l hml]
        simp [List.find?, hml]

theorem lastFold (m : Str → Bool) :
    ∀ (links : List Str) (f : Str),
      links.foldl (lastStep m) f = ((links.reverse.find? m).getD f) := by
  intro links
  induction links with
  | nil => intro f; rfl
  | cons l ls ih =>
    intro f
    simp only [List.foldl_cons, List.reverse_cons, List.find?_append]
    rw [ih (lastStep m f l)]
    cases hfind : ls.reverse.find? m
    · cases hml : m l <;> simp [lastStep, hml, List.find?, Option.or]
    · simp [Option.or]

theorem batchStep_fb (s : Socials) (l : Str) :
    (batchStep s l).facebook = guardStep (hasSocial fbPat) s.facebook l := by
  simp only [batchStep, guardStep]
  split_ifs <;> rfl

theorem batchStep_ig (s : Socials) (l : Str) :
    (batchStep s l).instagram = guardStep (hasSocial igPat) s.instagram l := by
  simp only [batchStep, guardStep]
  split_ifs <;> rfl

theorem batchStep_li (s : Socials) (l : Str) :
    (batchStep s l).linkedin = guardStep (hasSocial liPat) s.linkedin l := by
  simp only [batchStep, guardStep]
  split_ifs <;> rfl

theorem singleStep_fb (s : Socials) (l : Str) :
    (singleStep s l).facebook = lastStep (hasSocial fbPat) s.facebook l := by
  simp only [singleStep, lastStep]
  split_ifs <;> rfl

theorem singleStep_ig (s : Socials) (l : Str) :
    (singleStep s l).instagram =
      lastStep (fun x => !hasSocial fbPat x && hasSocial igPat x) s.instagram l := by
  simp only [singleStep, lastStep]
  split_ifs with h1 h2 h3 <;> simp_all

theorem singleStep_li (s : Socials) (l : Str) :
    (singleStep s l).linkedin =
      lastStep (fun x => !hasSocial fbPat x && !hasSocial igPat x && hasSocial liPat x)
        s.linkedin l := by
  simp only [singleStep, lastStep]
  split_ifs with h1 h2 h3 <;> simp_all

theorem batch_fold_fb : ∀ (links : List Str) (s : Socials),
    (links.foldl batchStep s).facebook = links.foldl (guardStep (hasSocial fbPat)) s.facebook := by
  intro links
  induction links with
  | nil => intro s; rfl
  | cons l ls ih =>
    intro s
    simp only [List.foldl_cons]
    rw [ih, batchStep_fb]

theorem batch_fold_ig : ∀ (links : List Str) (s : Socials),
    (links.foldl batchStep s).instagram = links.foldl (guardStep (hasSocial igPat)) s.instagram := by
  intro links
  induction links with
  | nil => intro s; rfl
  | cons l ls ih =>
    intro s
    simp only [List.foldl_cons]
    rw [ih, batchStep_ig]

theorem batch_fold_li : ∀ (links : List Str) (s : Socials),
    (links.foldl batchStep s).linkedin = links.foldl (guardStep (hasSocial liPat)) s.linkedin := by
  intro links
  induction links with
  | nil => intro s; rfl
  | cons l ls ih =>
    intro s
    simp only [List.foldl_cons]
    rw [ih, batchStep_li]

theorem single_fold_fb : ∀ (links : List Str) (s : Socials),
    (links.foldl singleStep s).facebook = links.foldl (lastStep (hasSocial fbPat)) s.facebook := by
  intro links
  induction links with
  | nil => intro s; rfl
  | cons l ls ih =>
    intro s
    simp only [List.foldl_cons]
    rw [ih, singleStep_fb]

theorem single_fold_ig : ∀ (links : List Str) (s : Socials),
    (links.foldl singleStep s).instagram =
      links.foldl (lastStep (fun x => !hasSocial fbPat x && hasSocial igPat x)) s.instagram := by
  intro links
  induction links with
  | nil => intro s; rfl
  | cons l ls ih =>
    intro s
    simp only [List.foldl_cons]
    rw [ih, singleStep_ig]

theorem single_fold_li : ∀ (links : List Str) (s : Socials),
    (links.foldl singleStep s).linkedin =
      links.foldl
        (lastStep (fun x => !hasSocial fbPat x && !hasSocial igPat x && hasSocial liPat x))
        s.linkedin := by
  intro links
  induction links with
  | nil => intro s; rfl
  | cons l ls ih =>
    intro s
    simp only [List.foldl_cons]
    rw [ih, singleStep_li]

/-- Counterexample to C6: the single-URL path keeps the LAST matching link for
a platform, not the first — with two facebook links the record holds the
second one. -/
theorem socials_first_match_counterexample :
    (extract_contact_info
        (fun _ => Except.ok
          (PageData.mk [] [] [lc "https://facebook.com/a", lc "https://facebook.com/b"]))
        (lc "https://x.com")).facebook = lc "https://facebook.com/b" ∧
    lc "https://facebook.com/b" ≠ lc "https://facebook.com/a" := by
  decide

/-- C6 (amended): in the spreadsheet-batch path each platform field keeps the
first matching link in link order, independently across platforms; in the
single-URL path each link is attributed only to the first platform (in order
facebook, instagram, linkedin) whose pattern it matches, and each field keeps
the LAST link so attributed; in both paths a platform with no matching link
yields the empty string. -/
theorem socials_selection_amended (links : List Str) :
    (socialsBatch links).facebook = ((links.find? (hasSocial fbPat)).getD []) ∧
    (socialsBatch links).instagram = ((links.find? (hasSocial igPat)).getD []) ∧
    (socialsBatch links).linkedin = ((links.find? (hasSocial liPat)).getD []) ∧
    (socialsSingle links).facebook = ((links.reverse.find? (hasSocial fbPat)).getD []) ∧
    (socialsSingle links).instagram =
      ((links.reverse.find? (fun x => !hasSocial fbPat x && hasSocial igPat x)).getD []) ∧
    (socialsSingle links).linkedin =
      ((links.reverse.find?
        (fun x => !hasSocial fbPat x && !hasSocial igPat x && hasSocial liPat x)).getD []) := by
  refine ⟨?_, ?_, ?_, ?_, ?_, ?_⟩
  · rw [socialsBatch, batch_fold_fb, guardFold _ (fun x h => hasSocial_ne_nil h)]
    rfl
  · rw [socialsBatch, batch_fold_ig, guardFold _ (fun x h => hasSocial_ne_nil h)]
    rfl
  · rw [socialsBatch, batch_fold_li, guardFold _ (fun x h => hasSocial_ne_nil h)]
    rfl
  · rw [socialsSingle, single_fold_fb, lastFold]
  · rw [socialsSingle, single_fold_ig, lastFold]
  · rw [socialsSingle, single_fold_li, lastFold]

/-! ## C8 : target extraction -/

theorem dedupGo_nodup : ∀ (l acc : List Str), acc.Nodup → (dedupGo l acc).Nodup := by
  intro l
  induction l with
  | nil => intro acc h; exact h
  | cons x xs ih =>
    intro acc h
    simp only [dedupGo]
    split_ifs with hmem
    · exact ih acc h
    · refine ih _ ?_
      rw [List.nodup_append]
      refine ⟨h, List.nodup_singleton x, ?_⟩
      intro y hy hz
      simp at hz
      exact hmem (hz ▸ hy)

theorem extractLoop_eq : ∀ (vs acc : List Str),
    extractLoop vs acc = dedupGo (vs.filterMap acceptValue) acc := by
  intro vs
  induction vs with
  | nil => intro acc; rfl
  | cons v vs ih =>
    intro acc
    by_cases hv : v = []
    · subst hv
      simp [extractLoop, List.filterMap_cons, (show acceptValue [] = none by decide), ih]
    · by_cases hat : '@' ∈ v
      · by_cases hd : afterLastAt v = []
        · simp [extractLoop, acceptValue, List.filterMap_cons, hv, hat, hd, ih]
        · by_cases hmem : afterLastAt v ∈ acc
          · simp [extractLoop, acceptValue, List.filterMap_cons, dedupGo, hv, hat, hd, hmem, ih]
          · simp [extractLoop, acceptValue, List.filterMap_cons, dedupGo, hv, hat, hd, hmem, ih]
      · by_cases hdot : '.' ∈ v ∧ ' ' ∉ pythonStrip v
        · by_cases hp : 2 ≤ (splitOnDot v).length ∧ ¬((splitOnDot v).head?.getD [] = [])
          · by_cases hmem : v ∈ acc
            · simp [extractLoop, acceptValue, List.filterMap_cons, dedupGo, hv, hat, hdot, hp,
                hmem, ih]
            · simp [extractLoop, acceptValue, List.filterMap_cons, dedupGo, hv, hat, hdot, hp,
                hmem, ih]
          · simp [extractLoop, acceptValue, List.filterMap_cons, dedupGo, hv, hat, hdot, hp, ih]
        · simp [extractLoop, acceptValue, List.filterMap_cons, dedupGo, hv, hat, hdot, ih]

/-- Counterexample to C8: a dotted value with an internal tab — internal
whitespace but not a space character — is accepted by the code's extraction,
while the claim (which skips every dotted value with internal whitespace)
requires it to be skipped. -/
theorem extract_targets_whitespace_counterexample :
    extract_targets [lc "a.b\tc"] = [lc "a.b\tc"] ∧
    extract_targets_spec [lc "a.b\tc"] = [] ∧
    (lc "a.b\tc").any isPyWs = true := by
  decide

/-- C8 (amended): target extraction maps a value containing `@` to the
substring after its last `@` (skipped if empty), accepts as-is a value
containing `.` with no space character in its stripped form, at least two
dot-separated parts and a nonempty first part, and skips every other value;
the resulting sequence is deduplicated under case-sensitive string identity,
keeping the first appearance in order. -/
theorem extract_targets_amended (values : List Str) :
    extract_targets values = dedupFirst (values.filterMap acceptValue) ∧
    (extract_targets values).Nodup := by
  constructor
  · exact extractLoop_eq values []
  · rw [extract_targets, extractLoop_eq values []]
    exact dedupGo_nodup _ [] List.nodup_nil

/-! ## C9 : URL normalization and validation -/

/-- Counterexample to C9: the target `httpfoo.com` has no URL scheme, yet the
code does not prefix `https://` (it tests `startswith("http")`, not scheme
presence); and on the target `a.[` the normalized URL does not parse at all —
`urlparse` raises `ValueError` — and instead of an all-empty record the whole
batch aborts. -/
theorem url_prefix_counterexample :
    urlScheme (lc "httpfoo.com") = [] ∧
    normalizeUrl (lc "httpfoo.com") = lc "httpfoo.com" ∧
    lc "httpfoo.com" ≠ lc "https://" ++ lc "httpfoo.com" ∧
    get_contact_info (fun _ => Except.ok (PageData.mk [lc "e@x.com"] [] []))
      (lc "httpfoo.com") = Except.ok (emptyRecord (lc "httpfoo.com")) ∧
    is_valid_url (normalizeUrl (lc "a.[")) = Except.error () ∧
    runBatch (fun _ => Except.ok (PageData.mk [lc "e@x.com"] [] [])) [lc "a.["] =
      Except.error () := by
  decide

/-- C9 (amended): for every target string that does not start with `http`,
`https://` is prefixed before validation; if the normalized target parses
without raising but does not yield a scheme plus a non-empty host, the
navigator returns an all-empty record for that target without opening a page
(the result is independent of the browser behaviour) and the batch continues
around it; if `urlparse` raises on the normalized target (an unbalanced
bracket in its netloc), the error propagates and aborts the entire batch. -/
theorem url_normalization_amended (target : Str) (bro bro2 : Browser) :
    (startsWith (lc "http") target = false →
      normalizeUrl target = lc "https://" ++ target) ∧
    (is_valid_url (normalizeUrl target) = Except.ok false →
      get_contact_info bro target = Except.ok (emptyRecord (normalizeUrl target)) ∧
      get_contact_info bro target = get_contact_info bro2 target ∧
      (∀ pre rs1 post rs2, runBatch bro pre = Except.ok rs1 →
        runBatch bro post = Except.ok rs2 →
        runBatch bro (pre ++ target :: post) =
          Except.ok (rs1 ++ emptyRecord (normalizeUrl target) :: rs2))) ∧
    (is_valid_url (normalizeUrl target) = Except.error () →
      ∀ pre post, runBatch bro (pre ++ target :: post) = Except.error ()) := by
  refine ⟨?_, ?_, ?_⟩
  · intro h
    simp [normalizeUrl, h]
  · intro h
    have h1 : get_contact_info bro target = Except.ok (emptyRecord (normalizeUrl target)) := by
      simp [get_contact_info, h]
    refine ⟨h1, ?_, ?_⟩
    · rw [h1]
      simp [get_contact_info, h]
    · intro pre rs1 post rs2 hp hq
      exact runBatch_insert_ok bro target _ h1 pre rs1 post rs2 hp hq
  · intro h pre post
    have hg : get_contact_info bro target = Except.error () := by
      simp [get_contact_info, h]
    exact runBatch_abort bro target hg pre post

/-- Witness for C9 (amended) at the scheme-less invalid target `/x` and the
raising target `a.[`. -/
theorem url_normalization_amended_witness :
    normalizeUrl (lc "/x") = lc "https://" ++ lc "/x" ∧
    get_contact_info (fun _ => Except.error ()) (lc "/x") =
      Except.ok (emptyRecord (normalizeUrl (lc "/x"))) ∧
    get_contact_info (fun _ => Except.error ()) (lc "/x") =
      get_contact_info (fun _ => Except.ok (PageData.mk [lc "e@x.com"] [] [])) (lc "/x") ∧
    runBatch (fun _ => Except.error ()) ([] ++ lc "/x" :: []) =
      Except.ok ([] ++ emptyRecord (normalizeUrl (lc "/x")) :: []) ∧
    runBatch (fun _ => Except.error ()) ([] ++ lc "a.[" :: []) = Except.error () := by
  have h := url_normalization_amended (lc "/x") (fun _ => Except.error ())
    (fun _ => Except.ok (PageData.mk [lc "e@x.com"] [] []))
  have h2 := url_normalization_amended (lc "a.[") (fun _ => Except.error ())
    (fun _ => Except.ok (PageData.mk [lc "e@x.com"] [] []))
  exact ⟨h.1 (by decide), (h.2.1 (by decide)).1, (h.2.1 (by decide)).2.1,
    (h.2.1 (by decide)).2.2 [] [] [] [] (by decide) (by decide),
    h2.2.2 (by decide) [] []⟩

/-! ## C7 : column selection -/

/-- Score of the `k`-th column (0 out of range). -/
def scoreAt (t : List Column) (k : Nat) : Nat := colScore (t.getD k [])

/-- Samples of the `k`-th column (empty out of range). -/
def samplesAt (t : List Column) (k : Nat) : List Str := colSamples (t.getD k [])

theorem samplesAt_score_zero {t : List Column} {k : Nat} (h : samplesAt t k = []) :
    scoreAt t k = 0 := by
  unfold scoreAt colScore
  unfold samplesAt at h
  rw [h]
  rfl

theorem scoreAt_append_lt {t : List Column} {col : Column} {k : Nat} (h : k < t.length) :
    scoreAt (t ++ [col]) k = scoreAt t k := by
  simp [scoreAt, List.getD_eq_getElem?_getD, List.getElem?_append_left h]

theorem samplesAt_append_lt {t : List Column} {col : Column} {k : Nat} (h : k < t.length) :
    samplesAt (t ++ [col]) k = samplesAt t k := by
  simp [samplesAt, List.getD_eq_getElem?_getD, List.getElem?_append_left h]

theorem scoreAt_append_last (t : List Column) (col : Column) :
    scoreAt (t ++ [col]) t.length = colScore col := by
  simp [scoreAt, List.getD_eq_getElem?_getD]

theorem samplesAt_append_last (t : List Column) (col : Column) :
    samplesAt (t ++ [col]) t.length = colSamples col := by
  simp [samplesAt, List.getD_eq_getElem?_getD]

/-- Loop invariant of the column-selection scan over the processed prefix
`done`: with no candidate yet, every processed column had no samples and the
running maximum is still -1; with candidate `j`, the running maximum is
`j`'s score, no processed column scores more, and every earlier column either
scores strictly less or had no samples (and so was skipped). -/
def SelInv (done : List Column) (best : Option Nat) (ms : Int) : Prop :=
  match best with
  | none => ms = -1 ∧ ∀ k, k < done.length → samplesAt done k = []
  | some j => j < done.length ∧ ms = (scoreAt done j : Int) ∧
      (∀ k, k < done.length → (scoreAt done k : Int) ≤ ms) ∧
      (∀ k, k < j → (scoreAt done k : Int) < ms ∨ samplesAt done k = [])

theorem SelInv_skip {done : List Column} {col : Column} {best : Option Nat} {ms : Int}
    (h : SelInv done best ms) (h1 : colSamples col = []) :
    SelInv (done ++ [col]) best ms := by
  cases best with
  | none =>
    obtain ⟨hm, hall⟩ := h
    refine ⟨hm, ?_⟩
    intro k hk
    simp only [List.length_append, List.length_cons, List.length_nil] at hk
    rcases Nat.lt_or_ge k done.length with hlt | hge
    · rw [samplesAt_append_lt hlt]
      exact hall k hlt
    · have hke : k = done.length := by omega
      subst hke
      rw [samplesAt_append_last]
      exact h1
  | some j =>
    obtain ⟨hj, hms, hmax, hstrict⟩ := h
    refine ⟨by simp; omega, ?_, ?_, ?_⟩
    · rw [scoreAt_append_lt hj]
      exact hms
    · intro k hk
      simp only [List.length_append, List.length_cons, List.length_nil] at hk
      rcases Nat.lt_or_ge k done.length with hlt | hge
      · rw [scoreAt_append_lt hlt]
        exact hmax k hlt
      · have hke : k = done.length := by omega
        subst hke
        rw [scoreAt_append_last]
        have hz : colScore col = 0 := by simp [colScore, h1]
        rw [hz, hms]
        exact_mod_cast Int.natCast_nonneg (scoreAt done j)
    · intro k hk
      have hkd : k < done.length := Nat.lt_trans hk hj
      rw [scoreAt_append_lt hkd, samplesAt_append_lt hkd]
      exact hstrict k hk

theorem SelInv_update {done : List Column} {col : Column} {best : Option Nat} {ms : Int}
    (h : SelInv done best ms) (h2 : ms < (colScore col : Int)) :
    SelInv (done ++ [col]) (some done.length) (colScore col) := by
  refine ⟨by simp, by rw [scoreAt_append_last], ?_, ?_⟩
  · intro k hk
    simp only [List.length_append, List.length_cons, List.length_nil] at hk
    rcases Nat.lt_or_ge k done.length with hlt | hge
    · rw [scoreAt_append_lt hlt]
      cases best with
      | none =>
        obtain ⟨hm, hall⟩ := h
        have h0 : scoreAt done k = 0 := samplesAt_score_zero (hall k hlt)
        rw [h0]
        exact Int.natCast_nonneg _
      | some j =>
        obtain ⟨hj, hms, hmax, hstrict⟩ := h
        exact le_of_lt (lt_of_le_of_lt (hmax k hlt) h2)
    · have hke : k = done.length := by omega
      subst hke
      rw [scoreAt_append_last]
  · intro k hk
    rw [scoreAt_append_lt hk, samplesAt_append_lt hk]
    cases best with
    | none =>
      obtain ⟨hm, hall⟩ := h
      exact Or.inr (hall k hk)
    | some j =>
      obtain ⟨hj, hms, hmax, hstrict⟩ := h
      exact Or.inl (lt_of_le_of_lt (hmax k hk) h2)

theorem SelInv_keep {done : List Column} {col : Column} {j : Nat} {ms : Int}
    (h : SelInv done (some j) ms) (h2 : ¬ ms < (colScore col : Int)) :
    SelInv (done ++ [col]) (some j) ms := by
  obtain ⟨hj, hms, hmax, hstrict⟩ := h
  refine ⟨by simp; omega, ?_, ?_, ?_⟩
  · rw [scoreAt_append_lt hj]
    exact hms
  · intro k hk
    simp only [List.length_append, List.length_cons, List.length_nil] at hk
    rcases Nat.lt_or_ge k done.length with hlt | hge
    · rw [scoreAt_append_lt hlt]
      exact hmax k hlt
    · have hke : k = done.length := by omega
      subst hke
      rw [scoreAt_append_last]
      omega
  · intro k hk
    have hkd : k < done.length := Nat.lt_trans hk hj
    rw [scoreAt_append_lt hkd, samplesAt_append_lt hkd]
    exact hstrict k hk

theorem selGo_inv : ∀ (cols done : List Column) (best : Option Nat) (ms : Int),
    SelInv done best ms →
    SelInv (done ++ cols) (selGo done.length best ms cols).1 (selGo done.length best ms cols).2 := by
  intro cols
  induction cols with
  | nil =>
    intro done best ms h
    simpa [selGo] using h
  | cons col rest ih =>
    intro done best ms h
    have key : ∀ (b2 : Option Nat) (m2 : Int), SelInv (done ++ [col]) b2 m2 →
        SelInv (done ++ col :: rest)
          (selGo (done.length + 1) b2 m2 rest).1 (selGo (done.length + 1) b2 m2 rest).2 := by
      intro b2 m2 hi
      have h3 := ih (done ++ [col]) b2 m2 hi
      simpa [List.append_assoc] using h3
    simp only [selGo]
    split_ifs with h1 h2
    · exact key best ms (SelInv_skip h (List.isEmpty_iff.1 h1))
    · exact key (some done.length) (colScore col) (SelInv_update h h2)
    · cases best with
      | none =>
        exfalso
        obtain ⟨hm, hall⟩ := h
        rw [hm] at h2
        exact h2 (lt_of_lt_of_le (by omega) (Int.natCast_nonneg (colScore col)))
      | some j =>
        exact key (some j) ms (SelInv_keep h h2)

/-- C7: column selection scores each column over its (at most 20) sampled
present values; it aborts (returns `none`) iff the table has no columns or
every column scores zero; otherwise it returns a column of strictly positive,
maximal score such that every earlier column scores strictly less (ties break
to the first-seen column, columns never being reordered). -/
theorem column_selection_spec (t : List Column) :
    (select_target_column t = none ↔
      (t = [] ∨ ∀ k, k < t.length → scoreAt t k = 0)) ∧
    (∀ i, select_target_column t = some i →
      i < t.length ∧ 0 < scoreAt t i ∧
      (∀ k, k < t.length → scoreAt t k ≤ scoreAt t i) ∧
      (∀ k, k < i → scoreAt t k < scoreAt t i)) := by
  have hbase : SelInv [] none (-1) := ⟨rfl, by intro k hk; simp at hk⟩
  have hinv := selGo_inv t [] none (-1) hbase
  simp only [List.nil_append, List.length_nil] at hinv
  rcases hsel : selGo 0 none (-1) t with ⟨best, ms⟩
  rw [hsel] at hinv
  cases best with
  | none =>
    obtain ⟨hm, hall⟩ := hinv
    have hsel2 : select_target_column t = none := by simp [select_target_column, hsel]
    constructor
    · rw [hsel2]
      constructor
      · intro _
        right
        intro k hk
        exact samplesAt_score_zero (hall k hk)
      · intro _
        rfl
    · intro i hi
      rw [hsel2] at hi
      exact absurd hi (by simp)
  | some j =>
    obtain ⟨hj, hms, hmax, hstrict⟩ := hinv
    by_cases hz : ms = 0
    · have hsel2 : select_target_column t = none := by simp [select_target_column, hsel, hz]
      constructor
      · rw [hsel2]
        constructor
        · intro _
          right
          intro k hk
          have hle := hmax k hk
          rw [hz] at hle
          omega
        · intro _
          rfl
      · intro i hi
        rw [hsel2] at hi
        exact absurd hi (by simp)
    · have hsel2 : select_target_column t = some j := by simp [select_target_column, hsel, hz]
      have hpos : 0 < scoreAt t j := by omega
      constructor
      · rw [hsel2]
        constructor
        · intro h
          exact absurd h (by simp)
        · intro hR
          exfalso
          rcases hR with hR | hR
          · subst hR
            simp at hj
          · have := hR j hj
            omega
      · intro i hi
        rw [hsel2] at hi
        have hij : i = j := by
          have := Option.some.inj hi
          omega
        subst hij
        refine ⟨hj, hpos, ?_, ?_⟩
        · intro k hk
          have hle := hmax k hk
          rw [hms] at hle
          exact_mod_cast hle
        · intro k hk
          rcases hstrict k hk with hlt | hs
          · rw [hms] at hlt
            exact_mod_cast hlt
          · have h0 : scoreAt t k = 0 := samplesAt_score_zero hs
            omega

/-- Witness for C7 at a concrete two-column table where only the second
column is URL/email-like. -/
theorem column_selection_spec_witness :
    select_target_column [[some (lc "hello")], [some (lc "a@b.com")]] = some 1 ∧
    1 < ([[some (lc "hello")], [some (lc "a@b.com")]] : List Column).length ∧
    0 < scoreAt [[some (lc "hello")], [some (lc "a@b.com")]] 1 := by
  have h := (column_selection_spec [[some (lc "hello")], [some (lc "a@b.com")]]).2 1 (by decide)
  exact ⟨by decide, h.1, h.2.1⟩
